import Mathlib

/-!
Shallow embedding of the ticker-mention pipeline of this repository
(`super_pony/cmd_handlers/graphChannelHandler.mjs`, `listAllTickers.mjs`,
`listFirstByUser.mjs`, `tickersDashboard.mjs`) and proofs about it.

Conventions of the embedding:
* JS strings are Lean `String`s / `List Char`; machine-level Unicode detail
  is modelled at the code-point level (the inputs of interest are ASCII).
* Discord snowflake ids are decimal digit strings; `BigInt(s)` on such a
  string is its decimal value, modelled by `bigIntOf`.
* `new Date(ms).toISOString()` is modelled by `isoOfMs` (a rendering of the
  millisecond count; no proved property inspects the text of a timestamp,
  only the `Date.parse` value, modelled by `dateParse`), so that
  `dateParse (isoOfMs n) = n` mirrors the ISO round trip order-faithfully.
* The single-writer promise queue serializes every read-modify-write of the
  ledger document, so the persisted document evolves exactly like a value of
  type `Db` threaded through the pure operations below.
-/

/-! ## Basic JS character classes and string helpers -/

/-- Code points of the JS `\s` class (WhiteSpace and LineTerminator). -/
def jsSpaceCodes : List Nat :=
  [0x09, 0x0a, 0x0b, 0x0c, 0x0d, 0x20, 0xa0, 0x1680,
   0x2000, 0x2001, 0x2002, 0x2003, 0x2004, 0x2005, 0x2006, 0x2007,
   0x2008, 0x2009, 0x200a, 0x2028, 0x2029, 0x202f, 0x205f, 0x3000, 0xfeff]

def isJsSpace (c : Char) : Bool := jsSpaceCodes.contains c.toNat

def isAsciiLetter (c : Char) : Bool :=
  ('A' ≤ c && c ≤ 'Z') || ('a' ≤ c && c ≤ 'z')

def isAsciiDigit (c : Char) : Bool := '0' ≤ c && c ≤ '9'

def isAlnumAscii (c : Char) : Bool := isAsciiLetter c || isAsciiDigit c

/-- Characters outside `\x00-\x7F` (the regexes treat these as boundaries). -/
def isNonAscii (c : Char) : Bool := 128 ≤ c.toNat

/-- `String.prototype.trim` (strips the JS `\s` class at both ends). -/
def jsTrim (s : String) : String :=
  String.mk (((s.data.dropWhile isJsSpace).reverse.dropWhile isJsSpace).reverse)

/-- ASCII `toUpperCase` on one character (symbols in this repo are ASCII). -/
def jsUpperChar (c : Char) : Char :=
  if 'a' ≤ c && c ≤ 'z' then Char.ofNat (c.toNat - 32) else c

/-- ASCII `String.prototype.toUpperCase`. -/
def jsToUpper (s : String) : String := String.mk (s.data.map jsUpperChar)

/-- `BigInt(s)` for a decimal digit string: its decimal value. -/
def bigIntOf (s : String) : Nat :=
  s.data.foldl (fun n c => n * 10 + (c.toNat - 48)) 0

/-- `Date.parse` on the timestamp strings produced by `isoOfMs` below. -/
def dateParse (s : String) : Nat := bigIntOf s

/-- Stand-in for `new Date(ms).toISOString()`: renders the millisecond
count; `dateParse` recovers the order (no property inspects the text). -/
def isoOfMs (ms : Nat) : String := toString ms

/-- `a.includes(pat)` for the fixed nonempty pattern used by the backfill. -/
def strIncludesAux (pat : List Char) : List Char → Bool
  | [] => pat.isPrefixOf ([] : List Char)
  | c :: t => pat.isPrefixOf (c :: t) || strIncludesAux pat t

def strIncludes (s pat : String) : Bool := strIncludesAux pat.data s.data

/-! ## The ticker regexes

`TICKER_RE`:
`(?:^|[\s"'~([<{]|[^\x00-\x7F])\$?([A-Za-z]\x7b1,5\x7d(?:[.\-][A-Za-z]\x7b1,2\x7d)?)(?=$|[\s"'~)\]>}.,:;!?]|[^\x00-\x7F])`
with flags `gu` (the backquote of the original character classes is written
`~` above and appears as code point 96 below).

`TICKER_RE_FALLBACK`:
`(?:^|[^A-Za-z0-9])\$?([A-Za-z]\x7b1,5\x7d(?:[.-][A-Za-z]\x7b1,2\x7d)?)(?=$|[^A-Za-z0-9])`
with flag `g`.

The scanner below mirrors the backtracking `exec` loop: at each attempt
position the alternatives are tried in written order, the letter quantifier
is greedy (longest first), the optional `[.-]`-joined suffix tries two
letters, then one, then none, and a successful match resumes scanning right
after the capture (the right boundary is a zero-width lookahead). -/

/-- Left-boundary character class: `[\s"'`([{<]` (codes 34 39 96 40 91 123
60) for the primary pattern, `[^A-Za-z0-9]` for the fallback. -/
def leftOkChar (fb : Bool) (c : Char) : Bool :=
  if fb then !(isAlnumAscii c)
  else isJsSpace c || ([34, 39, 96, 40, 91, 123, 60] : List Nat).contains c.toNat
    || isNonAscii c

/-- Right-boundary lookahead: end of input, `[\s"'`)\]}>.,:;!?]` (codes 34 39
96 41 93 125 62 46 44 58 59 33 63) or non-ASCII for the primary pattern;
end of input or `[^A-Za-z0-9]` for the fallback. -/
def rightOk (fb : Bool) : List Char → Bool
  | [] => true
  | c :: _ =>
    if fb then !(isAlnumAscii c)
    else isJsSpace c
      || ([34, 39, 96, 41, 93, 125, 62, 46, 44, 58, 59, 33, 63] : List Nat).contains c.toNat
      || isNonAscii c

def isSepChar (c : Char) : Bool := c = '.' || c = '-'

/-- The optional share-class suffix `(?:[.\-][A-Za-z]\x7b1,2\x7d)?` after the
letters `pre`, greedy (two suffix letters, then one, then no suffix), each
alternative gated by the right-boundary lookahead. Returns the capture and
the rest of the input after the match. -/
def suffixTry (fb : Bool) (pre rest : List Char) : Option (List Char × List Char) :=
  match rest with
  | s1 :: a :: b :: r3 =>
    if isSepChar s1 && isAsciiLetter a && isAsciiLetter b && rightOk fb r3 then
      some (pre ++ [s1, a, b], r3)
    else if isSepChar s1 && isAsciiLetter a && rightOk fb (b :: r3) then
      some (pre ++ [s1, a], b :: r3)
    else if rightOk fb rest then some (pre, rest) else none
  | s1 :: a :: r2 =>
    if isSepChar s1 && isAsciiLetter a && rightOk fb r2 then
      some (pre ++ [s1, a], r2)
    else if rightOk fb rest then some (pre, rest) else none
  | _ => if rightOk fb rest then some (pre, rest) else none

/-- Greedy `[A-Za-z]\x7b1,5\x7d`: try `k` letters, backtracking downwards. -/
def tryK (fb : Bool) (s run : List Char) : Nat → Option (List Char × List Char)
  | 0 => none
  | k + 1 =>
    match suffixTry fb (run.take (k + 1)) (s.drop (k + 1)) with
    | some out => some out
    | none => tryK fb s run k

def groupMatch (fb : Bool) (s : List Char) : Option (List Char × List Char) :=
  let run := s.takeWhile isAsciiLetter
  tryK fb s run (min 5 run.length)

/-- `\$?` followed by the capture group (greedy: with the dollar first). -/
def coreMatch (fb : Bool) (s : List Char) : Option (List Char × List Char) :=
  match s with
  | c :: r =>
    if c = '$' then
      match groupMatch fb r with
      | some out => some out
      | none => groupMatch fb s
    else groupMatch fb s
  | [] => none

/-- One attempt of the whole pattern at the current position: the `^`
alternative (only at the very start of the text), else one left-boundary
character followed by the core. -/
def attemptAt (fb atStart : Bool) (s : List Char) : Option (List Char × List Char) :=
  let viaBoundary : Option (List Char × List Char) :=
    match s with
    | c :: r => if leftOkChar fb c then coreMatch fb r else none
    | [] => none
  if atStart then
    match coreMatch fb s with
    | some out => some out
    | none => viaBoundary
  else viaBoundary

/-- The `g`-flag `exec` loop: collect every capture, resuming after each
match, advancing one character after a failed attempt. Every successful
attempt consumes at least one character, so fuel `length + 1` never runs
out. -/
def scanAux (fb : Bool) : Nat → Bool → List Char → List (List Char)
  | 0, _, _ => []
  | fuel + 1, atStart, s =>
    match attemptAt fb atStart s with
    | some (cap, rest) => cap :: scanAux fb fuel false rest
    | none =>
      match s with
      | [] => []
      | _ :: t => scanAux fb fuel false t

/-- All captures of `TICKER_RE` over the text. -/
def primaryCands (text : List Char) : List (List Char) :=
  scanAux false (text.length + 1) true text

/-- All captures of `TICKER_RE_FALLBACK` over the text. -/
def fallbackCands (text : List Char) : List (List Char) :=
  scanAux true (text.length + 1) true text

/-- `m[1].toUpperCase()` followed by the global replacement of hyphens by
dots (`BRK-B` becomes `BRK.B`). -/
def normalizeCand (cap : List Char) : String :=
  String.mk (cap.map (fun c =>
    let u := jsUpperChar c
    if u = '-' then '.' else u))

/-- One step of the validation loop: `if (tickerSet.has(cand) &&
!blacklistSet.has(cand)) found.add(cand)` (the `found` set keeps insertion
order, modelled as a duplicate-free list). -/
def pushCand (tickerSet blacklistSet found : List String) (cap : List Char) : List String :=
  let cand := normalizeCand cap
  if tickerSet.contains cand && !(blacklistSet.contains cand) && !(found.contains cand)
  then found ++ [cand] else found

def validateCands (tickerSet blacklistSet : List String) (cands : List (List Char)) :
    List String :=
  cands.foldl (pushCand tickerSet blacklistSet) []

/-- `extractTickers(text, tickerSet)` of `graphChannelHandler.mjs` (the
process-wide blacklist that the source reads through `getBlacklistSet()` is
passed as the explicit `blacklistSet` argument). -/
def extractTickers (text : String) (tickerSet blacklistSet : List String) : List String :=
  if text = "" then []
  else
    let found := validateCands tickerSet blacklistSet (primaryCands text.data)
    if found.length = 0 then
      validateCands tickerSet blacklistSet (fallbackCands text.data)
    else found

/-- Whether the `found.size === 0` gate of `extractTickers` sends the text to
the fallback pattern (for nonempty text; empty text returns early). -/
def fallbackConsulted (text : String) (tickerSet blacklistSet : List String) : Bool :=
  if text = "" then false
  else (validateCands tickerSet blacklistSet (primaryCands text.data)).length = 0

/-! ## Ledger data model

`MentionRecord` is one entry of the ledger document (`db.json`): the object
built in `handleGraphChannelMessage`. `Db` is the whole document; its
`checkpoints` object is an association list keyed by channel id (JS object
semantics: updating an existing key keeps its position, a new key is
appended). -/

structure UserRef where
  id : String
  name : String
deriving DecidableEq, Repr

structure MentionRecord where
  ticker : String
  user : UserRef
  messageId : String
  channelId : String
  guildId : String
  link : String
  timestamp : String
  content : String
deriving DecidableEq, Repr

structure Checkpoint where
  lastProcessedId : String
  lastProcessedAt : String
deriving DecidableEq, Repr

structure Db where
  updated : String
  entries : List MentionRecord
  checkpoints : List (String × Checkpoint)
deriving DecidableEq, Repr

/-- `obj[k]` on a JS object modelled as an association list. -/
def alistGet {β : Type} : List (String × β) → String → Option β
  | [], _ => none
  | (k', v) :: rest, k => if k' = k then some v else alistGet rest k

/-- `obj[k] = v` on a JS object: replace in place, or append a new key. -/
def alistSet {β : Type} : List (String × β) → String → β → List (String × β)
  | [], k, v => [(k, v)]
  | (k', v') :: rest, k, v =>
    if k' = k then (k, v) :: rest else (k', v') :: alistSet rest k v

/-! ## `loadDb`

The file read parses to one of three outcomes: a JSON array (the legacy
shape), a JSON object (possibly missing `entries` or `checkpoints`), or a
failure (missing or unparsable file — the `catch` branch). `now` stands for
`new Date().toISOString()`. -/

inductive RawDb where
  | corrupt : RawDb
  | arrayDoc (entries : List MentionRecord) : RawDb
  | objDoc (updated : String) (entries : Option (List MentionRecord))
      (checkpoints : Option (List (String × Checkpoint))) : RawDb
deriving DecidableEq

def loadDb (raw : RawDb) (now : String) : Db :=
  match raw with
  | .corrupt => { updated := now, entries := [], checkpoints := [] }
  | .arrayDoc es => { updated := now, entries := es, checkpoints := [] }
  | .objDoc u es cs => { updated := u, entries := es.getD [], checkpoints := cs.getD [] }

/-! ## `appendEntries`

The queued operation: load the document, build the `have` key set from the
persisted entries, push only entries whose `(messageId, ticker)` key is new
(also against earlier entries of the same batch), and write back only when
something was added. The pure model threads the document and returns whether
a disk write happened. -/

def entryKey (e : MentionRecord) : String := e.messageId ++ ":" ++ e.ticker

def appendStep (acc : List MentionRecord × List String × Nat) (e : MentionRecord) :
    List MentionRecord × List String × Nat :=
  if acc.2.1.contains (entryKey e) then acc
  else (acc.1 ++ [e], acc.2.1 ++ [entryKey e], acc.2.2 + 1)

def appendEntries (db : Db) (entries : List MentionRecord) (now : String) : Db × Bool :=
  if entries.length = 0 then (db, false)
  else
    let out := entries.foldl appendStep (db.entries, db.entries.map entryKey, 0)
    if 0 < out.2.2 then ({ db with entries := out.1, updated := now }, true)
    else (db, false)

/-! ## Checkpoints -/

/-- `snowflakeGt(a, b)`: `!b` (empty string) is treated as "no stored id",
otherwise compare as `BigInt`s. -/
def snowflakeGt (a b : String) : Bool :=
  if b = "" then true else bigIntOf a > bigIntOf b

/-- `DISCORD_EPOCH = 1420070400000n`. -/
def DISCORD_EPOCH : Int := 1420070400000

/-- `snowflakeFromTsMs`: `(BigInt(ts) - DISCORD_EPOCH) << 22n` rendered as a
decimal string. -/
def snowflakeFromTsMs (ts : Int) : String :=
  toString ((ts - DISCORD_EPOCH) * 4194304)

/-- `updateCheckpoint(dbPath, channelId, msgId, tsIso)`: advance the stored
checkpoint only if no id is stored (`!cp.lastProcessedId`) or the candidate
is strictly newer; otherwise the document is not written at all. -/
def updateCheckpoint (db : Db) (channelId msgId tsIso now : String) : Db :=
  let lastId := match alistGet db.checkpoints channelId with
    | some cp => cp.lastProcessedId
    | none => ""
  if lastId = "" || snowflakeGt msgId lastId then
    { db with
      checkpoints := alistSet db.checkpoints channelId ⟨msgId, tsIso⟩,
      updated := now }
  else db

/-- A sequence of `updateCheckpoint` calls for one channel:
`(msgId, tsIso, now)` per call, applied in order. -/
def applyAdvances (db : Db) (channelId : String)
    (calls : List (String × String × String)) : Db :=
  calls.foldl (fun d c => updateCheckpoint d channelId c.1 c.2.1 c.2.2) db

/-! ## `getBlacklistSet`

`DEFAULT_BLACKLIST` is referenced by `getBlacklistSet` but its declaration
is not among the repository files provided; it is passed here as the
`defaultBlacklist` argument. Modelled from the spec: "a set of excluded
symbols (loaded from configuration, newline/comma/semicolon separated,
falling back to a built-in default list)". `env` is
`process.env.TICKER_BLACKLIST` (`none` = unset). -/

def isBlSep (c : Char) : Bool := isJsSpace c || c = ',' || c = ';'

mutual
/-- `raw.split(/[\s,;]+/)`: accumulate the current piece until a separator. -/
def splitGo (cur : List Char) : List Char → List (List Char)
  | [] => [cur.reverse]
  | c :: rest =>
    if isBlSep c then cur.reverse :: splitSkip rest else splitGo (c :: cur) rest

/-- Skip the rest of a separator run (one `[\s,;]+` match). -/
def splitSkip : List Char → List (List Char)
  | [] => [[]]
  | c :: rest => if isBlSep c then splitSkip rest else splitGo [c] rest
end

def splitOnSeps (s : String) : List String :=
  (splitGo [] s.data).map String.mk

/-- `list.join("\n")`. -/
def joinNl : List String → String
  | [] => ""
  | [t] => t
  | t :: rest => t ++ "\n" ++ joinNl rest

/-- `new Set(list)` keeping insertion order, as the list of first
occurrences. -/
def setOfList : List String → List String :=
  go []
where
  go (seen : List String) : List String → List String
    | [] => []
    | x :: xs => if seen.contains x then go seen xs else x :: go (x :: seen) xs

/-- `getBlacklistSet()`: use the env value when it is a nonblank string,
else the joined default list; split on `[\s,;]+`, trim and uppercase each
piece, drop empties, collect into a set. -/
def getBlacklistSet (defaultBlacklist : List String) (env : Option String) : List String :=
  let raw := match env with
    | some s => if 0 < (jsTrim s).length then s else joinNl defaultBlacklist
    | none => joinNl defaultBlacklist
  setOfList (((splitOnSeps raw).map (fun s => jsToUpper (jsTrim s))).filter
    (fun s => s ≠ ""))

/-! ## Per-ticker aggregation

The aggregation loop shared by `listFirstByUser.mjs` (lines 45-66) and
`listAllTickers.mjs` (lines 46-59): group entries by uppercased symbol and
track count, first occurrence (strict `<` on `Date.parse` of the timestamp)
and last occurrence (strict `>`). `firstTs` starts at `Infinity` and
`lastTs` at `-1`, modelled as `none` (every `Nat` is below `Infinity` and
above `-1`). `listAllTickers` omits `firstUserId`; the other fields
coincide. -/

structure TickerAgg where
  count : Nat
  firstTs : Option Nat
  firstLink : String
  firstUserId : String
  firstUserName : String
  lastTs : Option Nat
  lastLink : String
deriving DecidableEq, Repr

def emptyAgg : TickerAgg :=
  { count := 0, firstTs := none, firstLink := "", firstUserId := "",
    firstUserName := "", lastTs := none, lastLink := "" }

/-- `ts < cur.firstTs` with `firstTs` initially `Infinity`. -/
def tsBeforeFirst (ts : Nat) : Option Nat → Bool
  | none => true
  | some f => ts < f

/-- `ts > cur.lastTs` with `lastTs` initially `-1`. -/
def tsAfterLast (ts : Nat) : Option Nat → Bool
  | none => true
  | some l => ts > l

def aggStep (acc : List (String × TickerAgg)) (e : MentionRecord) :
    List (String × TickerAgg) :=
  let sym := jsToUpper e.ticker
  if sym = "" then acc
  else
    let ts := dateParse e.timestamp
    let cur := (alistGet acc sym).getD emptyAgg
    let cur := { cur with count := cur.count + 1 }
    let cur :=
      if tsBeforeFirst ts cur.firstTs then
        { cur with
          firstTs := some ts
          firstLink := e.link
          firstUserId := e.user.id
          firstUserName := e.user.name }
      else cur
    let cur :=
      if tsAfterLast ts cur.lastTs then
        { cur with lastTs := some ts, lastLink := e.link }
      else cur
    alistSet acc sym cur

/-- The `agg` map after the aggregation loop over all ledger entries. -/
def aggregateTickers (entries : List MentionRecord) : List (String × TickerAgg) :=
  entries.foldl aggStep []

/-! ## `computeGainers` (`tickersDashboard.mjs`)

`fetchBasisAndLatest` performs the network lookup; it is injected as the
function `fetch : symbol → firstTs → Option (basis × latest)`, `none` being
the thrown-error case that `mapLimit`'s `.catch` turns into `null`.
`mapLimit` fills a results array by input index, so its outcome is the
in-order map of the worker over the items (the concurrency limit only
schedules the calls). Prices are modelled as rationals. -/

structure GainInfo where
  symbol : String
  firstTs : Nat
deriving DecidableEq, Repr

structure GainRow where
  info : GainInfo
  basis : Rat
  latest : Rat
  pct : Rat
deriving DecidableEq, Repr

/-- Insertion step of `Array.prototype.sort((a, b) => b.pct - a.pct)`:
stable, descending by `pct`. -/
def insertDescPct (r : GainRow) : List GainRow → List GainRow
  | [] => [r]
  | x :: xs => if x.pct < r.pct then r :: x :: xs else x :: insertDescPct r xs

def sortGainersDesc (l : List GainRow) : List GainRow :=
  l.foldr insertDescPct []

/-- The `mapLimit` worker of `computeGainers`: fetch basis and latest, build
the row with `pct = (latest - basis) / basis * 100`, or `null` when the
lookup throws. -/
def gainWorker (fetch : String → Nat → Option (Rat × Rat)) (info : GainInfo) :
    Option GainRow :=
  match fetch info.symbol info.firstTs with
  | some (basis, latest) =>
    some { info := info
           basis := basis
           latest := latest
           pct := (latest - basis) / basis * 100 }
  | none => none

def computeGainers (fetch : String → Nat → Option (Rat × Rat))
    (items : List GainInfo) (limitTickers : Nat := 50) : List GainRow :=
  let subset := items.take limitTickers
  let out : List (Option GainRow) := subset.map (gainWorker fetch)
  sortGainersDesc (out.filterMap id)

/-! ## Backfill (`runBackfillOnce` and `handleGraphChannelMessage`)

A channel message as the handler reads it. The chat platform's
`fetch(\x7blimit: 100, after\x7d)` returns the (up to) 100 messages of the
channel whose snowflake id numerically exceeds `after`, ordered by id; the
channel is the full id-ordered history list. Name fields use `""` for a
missing (`undefined`) value, matching the `||` fallback chains. -/

structure BMsg where
  id : String
  createdTimestamp : Nat
  content : String
  bot : Bool
  mentionsUsers : List String
  authorId : String
  nickname : String
  memberDisplayName : String
  globalName : String
  username : String
  channelId : String
  guildId : String
  url : String
deriving DecidableEq, Repr

/-- The fixed collaborators and configuration of one backfill run. -/
structure BEnv where
  channel : List BMsg
  channelId : String
  botUserId : String
  tickerSet : List String
  blacklist : List String
  now : String
deriving Repr

/-- `message.member?.nickname || message.member?.displayName ||
message.author.globalName || message.author.username`. -/
def displayNameOf (m : BMsg) : String :=
  if m.nickname ≠ "" then m.nickname
  else if m.memberDisplayName ≠ "" then m.memberDisplayName
  else if m.globalName ≠ "" then m.globalName
  else m.username

/-- `(client.user?.id && message.mentions.users.has(client.user.id)) ||
message.content?.includes("@SuperPony")`. -/
def mentionsBot (env : BEnv) (m : BMsg) : Bool :=
  (env.botUserId ≠ "" && m.mentionsUsers.contains env.botUserId)
    || strIncludes m.content "@SuperPony"

/-- The `entries` array built by `handleGraphChannelMessage` for the
extracted tickers of one message. -/
def entriesOf (m : BMsg) (content : String) (tickers : List String) :
    List MentionRecord :=
  tickers.map fun t =>
    { ticker := t
      user := ⟨m.authorId, displayNameOf m⟩
      messageId := m.id
      channelId := m.channelId
      guildId := m.guildId
      link := m.url
      timestamp := isoOfMs m.createdTimestamp
      content := content }

/-- `handleGraphChannelMessage` with the flags of its callers. Returns the
document and how many `commitDbIfChanged` calls it made (`commitAfterWrite`
only; sends to the channel are pure I/O). The ticker file is `env.tickerSet`
(`loadTickerSet` throws only when that file is missing, which is outside
this model). -/
def handleGraphChannelMessage (env : BEnv) (db : Db) (m : BMsg)
    (doCheckpoint commitAfterWrite : Bool) : Db × Nat :=
  let content := jsTrim m.content
  if content = "" then
    if doCheckpoint then
      (updateCheckpoint db m.channelId m.id (isoOfMs m.createdTimestamp) env.now, 0)
    else (db, 0)
  else
    let tickers := extractTickers content env.tickerSet env.blacklist
    let db := if 0 < tickers.length then
        (appendEntries db (entriesOf m content tickers) env.now).1
      else db
    let commits := if 0 < tickers.length && commitAfterWrite then 1 else 0
    let db := if doCheckpoint then
        updateCheckpoint db m.channelId m.id (isoOfMs m.createdTimestamp) env.now
      else db
    (db, commits)

/-- State of the `while (true)` pagination loop of `runBackfillOnce`.
`fetchedIds` and `processedIds` record which messages each run fetched and
which it passed to the handler (the latter also get the per-message
`updateCheckpoint`). -/
structure BState where
  db : Db
  afterId : String
  scanned : Nat
  fetchedIds : List String
  processedIds : List String
deriving Repr

/-- The body of `for (const message of msgs)`: non-bot messages that do not
address the bot go through the handler (silent, no per-message commit, no
handler checkpoint) and then `updateCheckpoint` for the backfill channel;
every message advances the local cursor and the scanned count. -/
def eligibleMsg (env : BEnv) (m : BMsg) : Bool :=
  !m.bot && !mentionsBot env m

def backfillStep (env : BEnv) (st : BState) (m : BMsg) : BState :=
  let st :=
    if eligibleMsg env m then
      let db := (handleGraphChannelMessage env st.db m false false).1
      let db := updateCheckpoint db env.channelId m.id (isoOfMs m.createdTimestamp) env.now
      { st with db := db, processedIds := st.processedIds ++ [m.id] }
    else st
  { st with afterId := m.id, scanned := st.scanned + 1 }

/-- `channel.messages.fetch(\x7blimit: 100, after: afterId\x7d)`. -/
def fetchPage (env : BEnv) (afterId : String) : List BMsg :=
  (env.channel.filter (fun m => bigIntOf afterId < bigIntOf m.id)).take 100

/-- Insertion step of `.sort((a, b) => a.createdTimestamp - b.createdTimestamp)`. -/
def insertByTs (m : BMsg) : List BMsg → List BMsg
  | [] => [m]
  | x :: xs =>
    if m.createdTimestamp < x.createdTimestamp then m :: x :: xs
    else x :: insertByTs m xs

def sortByTs (l : List BMsg) : List BMsg := l.foldr insertByTs []

/-- The pagination loop. Each nonempty page moves the cursor past at least
one message, so fuel `channel.length + 1` (what `runBackfillOnce` passes)
always reaches the empty page. -/
def backfillLoop (env : BEnv) : Nat → BState → BState
  | 0, st => st
  | fuel + 1, st =>
    let page := fetchPage env st.afterId
    if page.length = 0 then st
    else
      let msgs := sortByTs page
      let st := { st with fetchedIds := st.fetchedIds ++ page.map (·.id) }
      backfillLoop env fuel (msgs.foldl (backfillStep env) st)

/-- Result of one `runBackfillOnce` call: the document, the scan counters and
the terminal `commitDbIfChanged` call (always exactly one; `commitChanged`
is its return value — whether the document file differed from the committed
state, i.e. whether this run changed it). -/
structure BResult where
  db : Db
  scanned : Nat
  fetchedIds : List String
  processedIds : List String
  commitCalls : Nat
  commitChanged : Bool
deriving Repr

/-- `runBackfillOnce(\x7bclient, channelId, ...\x7d)` over the pure document
state `db0`; `nowMs` is `Date.now()`. -/
def runBackfillOnce (env : BEnv) (db0 : Db) (nowMs : Int) (lookbackDays : Int) :
    BResult :=
  let lastId := match alistGet db0.checkpoints env.channelId with
    | some cp => cp.lastProcessedId
    | none => ""
  let afterId :=
    if lastId ≠ "" then lastId
    else snowflakeFromTsMs (nowMs - lookbackDays * 86400000)
  let st := backfillLoop env (env.channel.length + 1)
    { db := db0, afterId := afterId, scanned := 0, fetchedIds := [], processedIds := [] }
  { db := st.db
    scanned := st.scanned
    fetchedIds := st.fetchedIds
    processedIds := st.processedIds
    commitCalls := 1
    commitChanged := decide (st.db ≠ db0) }

/-- Specification-side description of what `appendEntries` adds: the batch
entries whose `(messageId, ticker)` key is not in `seen` and not the key of
an earlier batch entry (first occurrence wins). -/
def newEntries (seen : List String) : List MentionRecord → List MentionRecord
  | [] => []
  | e :: rest =>
    if seen.contains (entryKey e) then newEntries seen rest
    else e :: newEntries (seen ++ [entryKey e]) rest

/-! # Theorems -/

/-! ## C5: extraction boundary examples -/

/-- C5. Extraction boundary correctness: `"Bought some $TSLA today, not
tesla.com"` with ticker set `TSLA` and an empty blacklist yields exactly
`TSLA` (the domain suffix `tesla.com` does not match), and `"BRK-B and BRK.B
are same"` with ticker set `BRK.B` yields exactly `BRK.B`, both spellings
normalizing (uppercase, hyphen to dot) to that one symbol. -/
theorem extractTickers_boundary_examples :
    extractTickers "Bought some $TSLA today, not tesla.com" ["TSLA"] [] = ["TSLA"] ∧
    extractTickers "BRK-B and BRK.B are same" ["BRK.B"] [] = ["BRK.B"] ∧
    normalizeCand ("BRK-B".data) = "BRK.B" ∧
    normalizeCand ("BRK.B".data) = "BRK.B" := by decide

/-! ## C6: the fallback gate -/

/-- C6, counterexample. On `"FOO x=TSLA"` with ticker set `TSLA` the primary
pattern matches a candidate token (`FOO`), yet the fallback pattern is
consulted — the gate tests the validated set, not the raw matches — and the
result `TSLA` can only come from the fallback (the validated primary set is
empty). -/
theorem fallback_gate_raw_counterexample :
    (primaryCands ("FOO x=TSLA".data)).length = 1 ∧
    fallbackConsulted "FOO x=TSLA" ["TSLA"] [] = true ∧
    extractTickers "FOO x=TSLA" ["TSLA"] [] = ["TSLA"] ∧
    validateCands ["TSLA"] [] (primaryCands ("FOO x=TSLA".data)) = [] := by decide

/-- C6, amended. The fallback pattern is consulted exactly when the primary
pattern yields zero validated candidates (candidates surviving the ticker
set and blacklist filters), and the extraction result is the validated
candidates of whichever pattern the gate selects. -/
theorem extract_fallback_gating (text : String) (ts bl : List String) :
    extractTickers text ts bl =
      (if fallbackConsulted text ts bl = true then
        validateCands ts bl (fallbackCands text.data)
      else validateCands ts bl (primaryCands text.data)) ∧
    (fallbackConsulted text ts bl = true ↔
      text ≠ "" ∧ validateCands ts bl (primaryCands text.data) = []) := by
  by_cases h : text = ""
  · subst h
    refine ⟨rfl, by simp [fallbackConsulted]⟩
  · constructor
    · simp only [extractTickers, fallbackConsulted, if_neg h]
      rcases Nat.eq_zero_or_pos (validateCands ts bl (primaryCands text.data)).length with
        h0 | h0
      · simp [h0]
      · simp [Nat.pos_iff_ne_zero.mp h0]
    · simp [fallbackConsulted, h, List.length_eq_zero]

/-! ## C9: `loadDb` totality and the legacy shape -/

/-- C9. Loading a ledger file that parses to a bare JSON array yields the
upgraded document (those entries, empty checkpoints, fresh `updated`
timestamp), and a missing or unparsable file yields the empty document
instead of an error. -/
theorem loadDb_legacy_and_total (es : List MentionRecord) (now : String) :
    loadDb (RawDb.arrayDoc es) now = { updated := now, entries := es, checkpoints := [] } ∧
    loadDb RawDb.corrupt now = { updated := now, entries := [], checkpoints := [] } :=
  ⟨rfl, rfl⟩

/-! ## C1: idempotent, deduplicated append -/

theorem newEntries_cons_mem (seen : List String) (x : MentionRecord)
    (rest : List MentionRecord) (hm : entryKey x ∈ seen) :
    newEntries seen (x :: rest) = newEntries seen rest := by
  simp [newEntries, hm]

theorem newEntries_cons_notmem (seen : List String) (x : MentionRecord)
    (rest : List MentionRecord) (hm : entryKey x ∉ seen) :
    newEntries seen (x :: rest) = x :: newEntries (seen ++ [entryKey x]) rest := by
  simp [newEntries, hm]

theorem appendEntries_foldl (b : List MentionRecord) :
    ∀ (es : List MentionRecord) (seen : List String) (n : Nat),
    b.foldl appendStep (es, seen, n) =
      (es ++ newEntries seen b, seen ++ (newEntries seen b).map entryKey,
        n + (newEntries seen b).length) := by
  induction b with
  | nil => intro es seen n; simp [newEntries]
  | cons e rest ih =>
    intro es seen n
    by_cases hm : entryKey e ∈ seen
    · simp only [List.foldl_cons, appendStep]
      rw [if_pos (by simpa using hm), newEntries_cons_mem seen e rest hm, ih]
    · simp only [List.foldl_cons, appendStep]
      rw [if_neg (by simpa using hm), ih, newEntries_cons_notmem seen e rest hm]
      simp [List.append_assoc]
      omega

theorem newEntries_eq_nil (b : List MentionRecord) :
    ∀ seen, (∀ e ∈ b, entryKey e ∈ seen) → newEntries seen b = [] := by
  induction b with
  | nil => intro seen _; rfl
  | cons e rest ih =>
    intro seen h
    rw [newEntries_cons_mem seen e rest (h e (by simp))]
    exact ih seen (fun x hx => h x (by simp [hx]))

theorem newEntries_key_mem (b : List MentionRecord) :
    ∀ (seen : List String), ∀ e ∈ b,
      entryKey e ∈ seen ++ (newEntries seen b).map entryKey := by
  induction b with
  | nil => intro seen e he; cases he
  | cons x rest ih =>
    intro seen e he
    by_cases hm : entryKey x ∈ seen
    · rcases List.mem_cons.mp he with rfl | he'
      · exact List.mem_append_left _ hm
      · rw [newEntries_cons_mem seen x rest hm]; exact ih seen e he'
    · rw [newEntries_cons_notmem seen x rest hm]
      rcases List.mem_cons.mp he with rfl | he'
      · simp
      · have h2 := ih (seen ++ [entryKey x]) e he'
        simp only [List.mem_append, List.mem_singleton, List.map_cons,
          List.mem_cons] at h2 ⊢
        tauto

theorem newEntries_keys_fresh (b : List MentionRecord) :
    ∀ seen, (∀ k ∈ (newEntries seen b).map entryKey, k ∉ seen) ∧
      ((newEntries seen b).map entryKey).Nodup := by
  induction b with
  | nil => intro seen; simp [newEntries]
  | cons x rest ih =>
    intro seen
    by_cases hm : entryKey x ∈ seen
    · rw [newEntries_cons_mem seen x rest hm]; exact ih seen
    · rw [newEntries_cons_notmem seen x rest hm]
      obtain ⟨hfresh, hnd⟩ := ih (seen ++ [entryKey x])
      constructor
      · intro k hk
        simp only [List.map_cons, List.mem_cons] at hk
        rcases hk with rfl | hk
        · exact hm
        · intro hks
          exact hfresh k hk (List.mem_append_left _ hks)
      · simp only [List.map_cons, List.nodup_cons]
        refine ⟨fun hmem => ?_, hnd⟩
        exact hfresh _ hmem (by simp)

theorem appendEntries_fst_entries (db : Db) (b : List MentionRecord) (t : String) :
    (appendEntries db b t).1.entries = db.entries ++ newEntries (db.entries.map entryKey) b := by
  by_cases hb : b.length = 0
  · rw [List.length_eq_zero] at hb
    subst hb
    simp [appendEntries, newEntries]
  · simp only [appendEntries, if_neg hb]
    rw [appendEntries_foldl]
    by_cases hlen : 0 < (newEntries (db.entries.map entryKey) b).length
    · simp [hlen]
    · have h0 : newEntries (db.entries.map entryKey) b = [] := by
        rw [← List.length_eq_zero]; omega
      simp [h0]

theorem appendEntries_no_new (db : Db) (b : List MentionRecord) (t : String)
    (h : ∀ e ∈ b, entryKey e ∈ db.entries.map entryKey) :
    appendEntries db b t = (db, false) := by
  by_cases hb : b.length = 0
  · simp [appendEntries, hb]
  · simp only [appendEntries, if_neg hb]
    rw [appendEntries_foldl, newEntries_eq_nil b _ h]
    simp

/-- C1. Idempotent, deduplicated append: `appendEntries` appends exactly the
batch records whose `(messageId, ticker)` key is new against the persisted
document and against earlier records of the same batch; if every batch key
is already present it performs no write and leaves the document (its
`updated` timestamp included) unchanged; appending the same batch a second
time changes nothing and performs no write; and key-uniqueness of the
entries list is preserved. -/
theorem appendEntries_idempotent_dedup (db : Db) (b : List MentionRecord) (t t2 : String) :
    (appendEntries db b t).1.entries = db.entries ++ newEntries (db.entries.map entryKey) b ∧
    ((∀ e ∈ b, entryKey e ∈ db.entries.map entryKey) → appendEntries db b t = (db, false)) ∧
    appendEntries (appendEntries db b t).1 b t2 = ((appendEntries db b t).1, false) ∧
    ((db.entries.map entryKey).Nodup →
      ((appendEntries db b t).1.entries.map entryKey).Nodup) := by
  refine ⟨appendEntries_fst_entries db b t, appendEntries_no_new db b t, ?_, ?_⟩
  · apply appendEntries_no_new
    intro e he
    rw [appendEntries_fst_entries db b t]
    have h2 := newEntries_key_mem b (db.entries.map entryKey) e he
    simpa [List.map_append] using h2
  · intro hnd
    rw [appendEntries_fst_entries db b t, List.map_append, List.nodup_append]
    obtain ⟨hfresh, hnd2⟩ := newEntries_keys_fresh b (db.entries.map entryKey)
    exact ⟨hnd, hnd2, fun a ha hb2 => hfresh a hb2 ha⟩

/-! ## C2: checkpoint monotonicity -/

theorem alistGet_set_self {β : Type} (l : List (String × β)) (k : String) (v : β) :
    alistGet (alistSet l k v) k = some v := by
  induction l with
  | nil => simp [alistSet, alistGet]
  | cons p rest ih =>
    by_cases h : p.1 = k
    · simp [alistSet, h, alistGet]
    · simp [alistSet, h, alistGet, ih]

theorem updateCheckpoint_stale (d : Db) (c : String) (cp : Checkpoint) (i t n : String)
    (hlk : alistGet d.checkpoints c = some cp) (hne : cp.lastProcessedId ≠ "")
    (hle : ¬ bigIntOf cp.lastProcessedId < bigIntOf i) :
    updateCheckpoint d c i t n = d := by
  simp [updateCheckpoint, hlk, hne, snowflakeGt, hle]

theorem updateCheckpoint_advance (d : Db) (c : String) (cp : Checkpoint) (i t n : String)
    (hlk : alistGet d.checkpoints c = some cp) (hne : cp.lastProcessedId ≠ "")
    (hgt : bigIntOf cp.lastProcessedId < bigIntOf i) :
    updateCheckpoint d c i t n =
      { d with checkpoints := alistSet d.checkpoints c ⟨i, t⟩, updated := n } := by
  simp [updateCheckpoint, hlk, hne, snowflakeGt, hgt]

theorem updateCheckpoint_fresh (d : Db) (c : String) (i t n : String)
    (hlk : alistGet d.checkpoints c = none) :
    updateCheckpoint d c i t n =
      { d with checkpoints := alistSet d.checkpoints c ⟨i, t⟩, updated := n } := by
  simp [updateCheckpoint, hlk]

theorem applyAdvances_inv (c : String) :
    ∀ (calls : List (String × String × String)) (db : Db) (cp : Checkpoint),
    alistGet db.checkpoints c = some cp → cp.lastProcessedId ≠ "" →
    (∀ x ∈ calls, x.1 ≠ "") →
    ∃ cp', alistGet (applyAdvances db c calls).checkpoints c = some cp' ∧
      cp'.lastProcessedId ≠ "" ∧
      cp'.lastProcessedId ∈ cp.lastProcessedId :: calls.map (fun x => x.1) ∧
      bigIntOf cp'.lastProcessedId =
        (calls.map (fun x => bigIntOf x.1)).foldl max (bigIntOf cp.lastProcessedId) := by
  intro calls
  induction calls with
  | nil =>
    intro db cp hlk hne _
    exact ⟨cp, hlk, hne, by simp, by simp [applyAdvances]⟩
  | cons x rest ih =>
    intro db cp hlk hne hids
    have hx : x.1 ≠ "" := hids x (by simp)
    by_cases hgt : bigIntOf cp.lastProcessedId < bigIntOf x.1
    · have step := updateCheckpoint_advance db c cp x.1 x.2.1 x.2.2 hlk hne hgt
      have hlk2 : alistGet (updateCheckpoint db c x.1 x.2.1 x.2.2).checkpoints c =
          some ⟨x.1, x.2.1⟩ := by
        rw [step]; exact alistGet_set_self _ _ _
      obtain ⟨cp', h1, h2, h3, h4⟩ :=
        ih (updateCheckpoint db c x.1 x.2.1 x.2.2) ⟨x.1, x.2.1⟩ hlk2 hx
          (fun y hy => hids y (by simp [hy]))
      refine ⟨cp', ?_, h2, ?_, ?_⟩
      · simpa [applyAdvances] using h1
      · simpa [List.mem_cons, or_assoc] using Or.inr (by simpa using h3)
      · rw [h4]
        simp only [applyAdvances, List.map_cons, List.foldl_cons]
        rw [Nat.max_eq_right (Nat.le_of_lt hgt)]
    · have step := updateCheckpoint_stale db c cp x.1 x.2.1 x.2.2 hlk hne hgt
      obtain ⟨cp', h1, h2, h3, h4⟩ :=
        ih (updateCheckpoint db c x.1 x.2.1 x.2.2) cp (by rw [step]; exact hlk)
          hne (fun y hy => hids y (by simp [hy]))
      refine ⟨cp', ?_, h2, ?_, ?_⟩
      · simpa [applyAdvances] using h1
      · rcases List.mem_cons.mp h3 with h | h
        · simp [h]
        · simp [List.mem_cons, h]
      · rw [h4]
        simp only [applyAdvances, List.map_cons, List.foldl_cons]
        rw [Nat.max_eq_left (Nat.le_of_not_lt hgt)]

/-- C2. Checkpoint monotonicity: `updateCheckpoint` advances a stored
checkpoint only when the candidate id is strictly greater under `BigInt`
comparison (otherwise the document is untouched) or when none is stored;
consequently, starting from a channel with no checkpoint, any sequence of
advance calls leaves `lastProcessedId` equal to the numeric maximum of the
ids (and it is one of them). -/
theorem checkpoint_monotone_max (db : Db) (c : String)
    (calls : List (String × String × String))
    (h0 : alistGet db.checkpoints c = none)
    (h1 : calls ≠ [])
    (h2 : ∀ x ∈ calls, x.1 ≠ "") :
    (∀ (d : Db) (cp : Checkpoint) (i t n : String),
        alistGet d.checkpoints c = some cp → cp.lastProcessedId ≠ "" →
        ¬ bigIntOf cp.lastProcessedId < bigIntOf i →
        updateCheckpoint d c i t n = d) ∧
    ∃ cp', alistGet (applyAdvances db c calls).checkpoints c = some cp' ∧
      cp'.lastProcessedId ∈ calls.map (fun x => x.1) ∧
      bigIntOf cp'.lastProcessedId = (calls.map (fun x => bigIntOf x.1)).foldl max 0 := by
  refine ⟨fun d cp i t n => updateCheckpoint_stale d c cp i t n, ?_⟩
  match calls, h1 with
  | x :: rest, _ =>
    have hx : x.1 ≠ "" := h2 x (by simp)
    have step := updateCheckpoint_fresh db c x.1 x.2.1 x.2.2 h0
    have hlk2 : alistGet (updateCheckpoint db c x.1 x.2.1 x.2.2).checkpoints c =
        some ⟨x.1, x.2.1⟩ := by
      rw [step]; exact alistGet_set_self _ _ _
    obtain ⟨cp', hh1, _, hh3, hh4⟩ :=
      applyAdvances_inv c rest (updateCheckpoint db c x.1 x.2.1 x.2.2) ⟨x.1, x.2.1⟩
        hlk2 hx (fun y hy => h2 y (by simp [hy]))
    refine ⟨cp', ?_, ?_, ?_⟩
    · simpa [applyAdvances] using hh1
    · simpa [List.map_cons, List.mem_cons] using hh3
    · rw [hh4]
      simp only [List.map_cons, List.foldl_cons, Nat.zero_max]

/-- Witness for C2 at a concrete input: advancing with ids 5, 12, 7 stores
the maximum, 12. -/
theorem checkpoint_monotone_max_witness :
    ∃ cp', alistGet (applyAdvances { updated := "", entries := [], checkpoints := [] } "c"
        [("5", "t", "u"), ("12", "t", "u"), ("7", "t", "u")]).checkpoints "c" = some cp' ∧
      cp'.lastProcessedId ∈
        ([("5", "t", "u"), ("12", "t", "u"), ("7", "t", "u")] :
          List (String × String × String)).map (fun x => x.1) ∧
      bigIntOf cp'.lastProcessedId =
        (([("5", "t", "u"), ("12", "t", "u"), ("7", "t", "u")] :
          List (String × String × String)).map (fun x => bigIntOf x.1)).foldl max 0 :=
  (checkpoint_monotone_max { updated := "", entries := [], checkpoints := [] } "c"
    [("5", "t", "u"), ("12", "t", "u"), ("7", "t", "u")] rfl (by decide) (by decide)).2

/-! ## C4: blacklist default fallback -/

theorem dropWhile_eq_self_of_none (p : Char → Bool) :
    ∀ (l : List Char), (∀ c ∈ l, p c = false) → l.dropWhile p = l := by
  intro l h
  cases l with
  | nil => rfl
  | cons c t => simp [List.dropWhile_cons, h c (by simp)]

theorem jsTrim_eq_self (s : String) (h : ∀ c ∈ s.data, isJsSpace c = false) :
    jsTrim s = s := by
  unfold jsTrim
  rw [dropWhile_eq_self_of_none isJsSpace s.data h,
    dropWhile_eq_self_of_none isJsSpace s.data.reverse
      (fun c hc => h c (List.mem_reverse.mp hc)),
    List.reverse_reverse]

theorem splitGo_nosep :
    ∀ (t : List Char), (∀ c ∈ t, isBlSep c = false) →
    ∀ (cur rest : List Char), splitGo cur (t ++ rest) = splitGo (t.reverse ++ cur) rest := by
  intro t
  induction t with
  | nil => intro _ cur rest; simp
  | cons c t' ih =>
    intro h cur rest
    rw [List.cons_append, splitGo, if_neg (by simp [h c (by simp)])]
    rw [ih (fun x hx => h x (by simp [hx])) (c :: cur) rest]
    simp [List.append_assoc]

theorem splitSkip_cons_nosep (c : Char) (rest : List Char) (h : isBlSep c = false) :
    splitSkip (c :: rest) = splitGo [c] rest := by
  rw [splitSkip, if_neg (by simp [h])]

theorem splitGo_nil_cons_nosep (c : Char) (rest : List Char) (h : isBlSep c = false) :
    splitGo [] (c :: rest) = splitGo [c] rest := by
  rw [splitGo, if_neg (by simp [h])]

theorem string_ne_empty_data (t : String) (h : t ≠ "") : t.data ≠ [] := by
  intro hd
  apply h
  cases t
  simp_all

theorem splitGo_joinNl :
    ∀ (d : List String), d ≠ [] →
    (∀ t ∈ d, t ≠ "" ∧ ∀ c ∈ t.data, isBlSep c = false) →
    splitGo [] (joinNl d).data = d.map String.data := by
  intro d
  induction d with
  | nil => intro h; cases h rfl
  | cons t d' ih =>
    intro _ h
    obtain ⟨hne, hfree⟩ := h t (by simp)
    cases d' with
    | nil =>
      show splitGo [] (joinNl [t]).data = [t.data]
      have : (joinNl [t]).data = t.data ++ [] := by simp [joinNl]
      rw [this, splitGo_nosep t.data hfree [] []]
      simp [splitGo]
    | cons t2 d'' =>
      have hdata : (joinNl (t :: t2 :: d'')).data =
          t.data ++ ('\n' :: (joinNl (t2 :: d'')).data) := by
        show (t ++ "\n" ++ joinNl (t2 :: d'')).data = _
        simp [String.data_append]
      rw [hdata, splitGo_nosep t.data hfree [] _]
      rw [splitGo, if_pos (by simp [isBlSep, isJsSpace, jsSpaceCodes])]
      rw [List.append_nil, List.reverse_reverse]
      obtain ⟨hne2, hfree2⟩ := h t2 (by simp)
      have ht2 : t2.data ≠ [] := string_ne_empty_data t2 hne2
      have hjoin2 : ∃ c cs, (joinNl (t2 :: d'')).data = c :: cs ∧ isBlSep c = false := by
        cases d'' with
        | nil =>
          cases hc : t2.data with
          | nil => exact absurd hc ht2
          | cons c cs =>
            exact ⟨c, cs, by simp [joinNl, hc], hfree2 c (by simp [hc])⟩
        | cons t3 d3 =>
          have : (joinNl (t2 :: t3 :: d3)).data =
              t2.data ++ ('\n' :: (joinNl (t3 :: d3)).data) := by
            show (t2 ++ "\n" ++ joinNl (t3 :: d3)).data = _
            simp [String.data_append]
          cases hc : t2.data with
          | nil => exact absurd hc ht2
          | cons c cs =>
            refine ⟨c, cs ++ '\n' :: (joinNl (t3 :: d3)).data, ?_, hfree2 c (by simp [hc])⟩
            rw [this, hc]
            simp
      obtain ⟨c, cs, hcs, hcfree⟩ := hjoin2
      rw [hcs, splitSkip_cons_nosep c cs hcfree, ← splitGo_nil_cons_nosep c cs hcfree, ← hcs]
      rw [ih (by simp) (fun x hx => h x (by simp [hx]))]
      simp

theorem setOfList_go_nodup :
    ∀ (l seen : List String), (∀ x ∈ l, x ∉ seen) → l.Nodup → setOfList.go seen l = l := by
  intro l
  induction l with
  | nil => intro seen _ _; rfl
  | cons x xs ih =>
    intro seen hs hnd
    rw [setOfList.go, if_neg (by simpa using hs x (by simp))]
    rw [List.nodup_cons] at hnd
    rw [ih (x :: seen) ?_ hnd.2]
    intro y hy
    simp only [List.mem_cons, not_or]
    exact ⟨fun he => hnd.1 (he ▸ hy), hs y (by simp [hy])⟩

theorem setOfList_eq_self (l : List String) (h : l.Nodup) : setOfList l = l :=
  setOfList_go_nodup l [] (by simp) h

theorem stringMk_data (t : String) : String.mk t.data = t := by cases t; rfl

theorem blSep_ws (c : Char) (h : isBlSep c = false) : isJsSpace c = false := by
  unfold isBlSep at h
  cases hw : isJsSpace c <;> simp_all

/-- C4. Blacklist default fallback: with the configuration value unset (or
blank), `getBlacklistSet` succeeds and returns exactly the built-in default
list (for a well-formed default: nonempty, uppercase, separator-free,
duplicate-free symbols); with a nonblank value present, the value is split
on newline/comma/semicolon/whitespace runs, trimmed, uppercased and
collected into a set. `DEFAULT_BLACKLIST` itself is not among the provided
source files and is the `d` parameter, modelled from the spec. -/
theorem getBlacklistSet_default_fallback (d : List String) (s : String)
    (hne : d ≠ [])
    (hwf : ∀ t ∈ d, t ≠ "" ∧ jsToUpper t = t ∧ ∀ c ∈ t.data, isBlSep c = false)
    (hnd : d.Nodup) :
    getBlacklistSet d none = d ∧
    ((jsTrim s).length = 0 → getBlacklistSet d (some s) = getBlacklistSet d none) ∧
    (0 < (jsTrim s).length → getBlacklistSet d (some s) =
      setOfList (((splitOnSeps s).map (fun x => jsToUpper (jsTrim x))).filter
        (fun x => x ≠ ""))) := by
  have hsplit : splitOnSeps (joinNl d) = d := by
    unfold splitOnSeps
    rw [splitGo_joinNl d hne (fun t ht => ⟨(hwf t ht).1, (hwf t ht).2.2⟩)]
    rw [List.map_map]
    exact List.map_congr_left (fun t _ => stringMk_data t) |>.trans (List.map_id d)
  have hmap : (splitOnSeps (joinNl d)).map (fun x => jsToUpper (jsTrim x)) = d := by
    rw [hsplit]
    have : ∀ t ∈ d, jsToUpper (jsTrim t) = t := by
      intro t ht
      obtain ⟨_, hup, hfree⟩ := hwf t ht
      rw [jsTrim_eq_self t (fun c hc => blSep_ws c (hfree c hc)), hup]
    exact (List.map_congr_left this).trans (List.map_id d)
  have hnone : getBlacklistSet d none =
      setOfList (((splitOnSeps (joinNl d)).map (fun x => jsToUpper (jsTrim x))).filter
        (fun x => x ≠ "")) := rfl
  have hsome : getBlacklistSet d (some s) =
      setOfList (((splitOnSeps (if 0 < (jsTrim s).length then s else joinNl d)).map
        (fun x => jsToUpper (jsTrim x))).filter (fun x => x ≠ "")) := rfl
  have hmain : getBlacklistSet d none = d := by
    rw [hnone, hmap]
    rw [List.filter_eq_self.mpr (fun a ha => by simp [(hwf a ha).1])]
    exact setOfList_eq_self d hnd
  refine ⟨hmain, ?_, ?_⟩
  · intro h0
    rw [hsome, if_neg (by omega), ← hnone]
  · intro hpos
    rw [hsome, if_pos hpos]

/-- Witness for C4 at a concrete default list. -/
theorem getBlacklistSet_default_fallback_witness :
    getBlacklistSet ["ES", "NQ"] none = ["ES", "NQ"] :=
  (getBlacklistSet_default_fallback ["ES", "NQ"] "" (by decide) (by decide) (by decide)).1

/-! ## C7: per-ticker first/last aggregation -/

/-- C7. For a ledger of exactly three AAPL mentions at strictly increasing
timestamps T1 < T2 < T3 by users A, B, A, the per-ticker aggregation reports
count 3, first-mention user A with first timestamp T1 and first link the T1
record's, and last-mention link the T3 record's; and because the running
comparisons are strict, on a timestamp tie both first and last keep the
earliest-seen record of the iteration. -/
theorem aggregateTickers_first_last (e1 e2 e3 : MentionRecord) (A B : UserRef)
    (ht1 : e1.ticker = "AAPL") (ht2 : e2.ticker = "AAPL") (ht3 : e3.ticker = "AAPL")
    (hu1 : e1.user = A) (hu2 : e2.user = B) (hu3 : e3.user = A)
    (h12 : dateParse e1.timestamp < dateParse e2.timestamp)
    (h23 : dateParse e2.timestamp < dateParse e3.timestamp) :
    alistGet (aggregateTickers [e1, e2, e3]) "AAPL" =
      some ⟨3, some (dateParse e1.timestamp), e1.link, A.id, A.name,
        some (dateParse e3.timestamp), e3.link⟩ ∧
    (∀ f1 f2 : MentionRecord, f1.ticker = "AAPL" → f2.ticker = "AAPL" →
      dateParse f1.timestamp = dateParse f2.timestamp →
      alistGet (aggregateTickers [f1, f2]) "AAPL" =
        some ⟨2, some (dateParse f1.timestamp), f1.link, f1.user.id, f1.user.name,
          some (dateParse f1.timestamp), f1.link⟩) := by
  have hAAPL : jsToUpper "AAPL" = "AAPL" := rfl
  have hne : ("AAPL" : String) ≠ "" := by decide
  constructor
  · have n21 : ¬ dateParse e2.timestamp < dateParse e1.timestamp := by omega
    have n31 : ¬ dateParse e3.timestamp < dateParse e1.timestamp := by omega
    have g31 : dateParse e1.timestamp < dateParse e3.timestamp := by omega
    simp [aggregateTickers, aggStep, ht1, ht2, ht3, hu1, hu2, hu3, hAAPL, hne,
      alistGet, alistSet, emptyAgg, tsBeforeFirst, tsAfterLast, n21, n31, h12, h23, g31]
  · intro f1 f2 hf1 hf2 heq
    have n21 : ¬ dateParse f2.timestamp < dateParse f1.timestamp := by omega
    have n12 : ¬ dateParse f1.timestamp < dateParse f2.timestamp := by omega
    simp [aggregateTickers, aggStep, hf1, hf2, hAAPL, hne, alistGet, alistSet,
      emptyAgg, tsBeforeFirst, tsAfterLast, n21, n12, heq]

/-- Witness for C7: three concrete AAPL records at timestamps 100, 200, 300. -/
theorem aggregateTickers_first_last_witness :
    alistGet (aggregateTickers
      [{ ticker := "AAPL", user := ⟨"ua", "A"⟩, messageId := "1", channelId := "c",
         guildId := "g", link := "L1", timestamp := "100", content := "x" },
       { ticker := "AAPL", user := ⟨"ub", "B"⟩, messageId := "2", channelId := "c",
         guildId := "g", link := "L2", timestamp := "200", content := "y" },
       { ticker := "AAPL", user := ⟨"ua", "A"⟩, messageId := "3", channelId := "c",
         guildId := "g", link := "L3", timestamp := "300", content := "z" }]) "AAPL" =
      some ⟨3, some (dateParse "100"), "L1", "ua", "A", some (dateParse "300"), "L3"⟩ :=
  (aggregateTickers_first_last _ _ _ ⟨"ua", "A"⟩ ⟨"ub", "B"⟩
    rfl rfl rfl rfl rfl rfl (by decide) (by decide)).1

/-! ## C8 and C10: gainers ranking -/

theorem insertDescPct_perm (r : GainRow) :
    ∀ l : List GainRow, (insertDescPct r l).Perm (r :: l) := by
  intro l
  induction l with
  | nil => simp [insertDescPct]
  | cons x xs ih =>
    rw [insertDescPct]
    by_cases h : x.pct < r.pct
    · simp [h]
    · rw [if_neg h]
      exact (ih.cons x).trans (List.Perm.swap r x xs)

theorem sortGainersDesc_perm (l : List GainRow) : (sortGainersDesc l).Perm l := by
  induction l with
  | nil => simp [sortGainersDesc]
  | cons x xs ih =>
    have : sortGainersDesc (x :: xs) = insertDescPct x (sortGainersDesc xs) := rfl
    rw [this]
    exact (insertDescPct_perm x _).trans (ih.cons x)

theorem insertDescPct_sorted (r : GainRow) (l : List GainRow)
    (h : List.Pairwise (fun a b => b.pct ≤ a.pct) l) :
    List.Pairwise (fun a b => b.pct ≤ a.pct) (insertDescPct r l) := by
  induction l with
  | nil => simp [insertDescPct]
  | cons x xs ih =>
    rw [List.pairwise_cons] at h
    rw [insertDescPct]
    by_cases hx : x.pct < r.pct
    · rw [if_pos hx]
      refine List.pairwise_cons.mpr ⟨?_, List.pairwise_cons.mpr h⟩
      intro b hb
      rcases List.mem_cons.mp hb with rfl | hb
      · exact le_of_lt hx
      · exact le_trans (h.1 b hb) (le_of_lt hx)
    · rw [if_neg hx]
      refine List.pairwise_cons.mpr ⟨?_, ih h.2⟩
      intro b hb
      have := (insertDescPct_perm r xs).mem_iff.mp hb
      rcases List.mem_cons.mp this with rfl | hb'
      · exact le_of_not_lt hx
      · exact h.1 b hb'

theorem sortGainersDesc_sorted (l : List GainRow) :
    List.Pairwise (fun a b => b.pct ≤ a.pct) (sortGainersDesc l) := by
  induction l with
  | nil => simp [sortGainersDesc]
  | cons x xs ih => exact insertDescPct_sorted x _ ih

theorem filterMap_id_map {α β : Type} (w : α → Option β) (l : List α) :
    (l.map w).filterMap id = l.filterMap w := by
  simp

theorem filterMap_length {α β : Type} (w : α → Option β) :
    ∀ l : List α, (l.filterMap w).length = (l.filter (fun i => (w i).isSome)).length := by
  intro l
  induction l with
  | nil => rfl
  | cons x xs ih =>
    cases h : w x <;> simp [List.filterMap_cons, h, ih]

theorem filter_length_partition {α : Type} (p : α → Bool) :
    ∀ l : List α, (l.filter p).length + (l.filter (fun x => !(p x))).length = l.length := by
  intro l
  induction l with
  | nil => rfl
  | cons x xs ih =>
    cases h : p x <;> simp [h, ← ih] <;> omega

theorem gainWorker_some_inv (fetch : String → Nat → Option (Rat × Rat))
    (i : GainInfo) (g : GainRow) (hg : gainWorker fetch i = some g) :
    fetch i.symbol i.firstTs = some (g.basis, g.latest) ∧ g.info = i ∧
      g.pct = (g.latest - g.basis) / g.basis * 100 := by
  unfold gainWorker at hg
  cases h : fetch i.symbol i.firstTs with
  | none => rw [h] at hg; cases hg
  | some p =>
    rw [h] at hg
    cases p with
    | mk b l =>
      simp only [Option.some_inj] at hg
      subst hg
      exact ⟨rfl, rfl, rfl⟩

/-- C8. Ranking partial-failure tolerance: for five candidates of which the
price lookup fails for exactly two, `computeGainers` returns exactly three
rows — failed symbols are dropped, the batch is not aborted — sorted in
descending order of `pct`, each row carrying the fetched basis/latest and
`pct = (latest - basis) / basis * 100`. -/
theorem computeGainers_partial_failure (fetch : String → Nat → Option (Rat × Rat))
    (items : List GainInfo)
    (h5 : items.length = 5)
    (h2 : (items.filter (fun i => (fetch i.symbol i.firstTs).isNone)).length = 2) :
    (computeGainers fetch items).length = 3 ∧
    List.Pairwise (fun a b : GainRow => b.pct ≤ a.pct) (computeGainers fetch items) ∧
    ∀ g ∈ computeGainers fetch items,
      fetch g.info.symbol g.info.firstTs = some (g.basis, g.latest) ∧
      g.pct = (g.latest - g.basis) / g.basis * 100 := by
  have htake : items.take 50 = items := List.take_of_length_le (by omega)
  have hflt : computeGainers fetch items =
      sortGainersDesc (items.filterMap (gainWorker fetch)) := by
    simp [computeGainers, htake, filterMap_id_map]
  refine ⟨?_, ?_, ?_⟩
  · rw [hflt, (sortGainersDesc_perm _).length_eq, filterMap_length]
    have hpart := filter_length_partition (fun i => (gainWorker fetch i).isSome) items
    have hcongr : items.filter (fun i => !((gainWorker fetch i).isSome)) =
        items.filter (fun i => (fetch i.symbol i.firstTs).isNone) :=
      List.filter_congr (fun i _ => by
        cases h : fetch i.symbol i.firstTs <;> simp [gainWorker, h])
    rw [hcongr, h2, h5] at hpart
    omega
  · rw [hflt]; exact sortGainersDesc_sorted _
  · intro g hg
    rw [hflt] at hg
    have hg2 := (sortGainersDesc_perm _).mem_iff.mp hg
    obtain ⟨i, _, heq⟩ := List.mem_filterMap.mp hg2
    obtain ⟨hf, hi, hp⟩ := gainWorker_some_inv fetch i g heq
    rw [hi]
    exact ⟨hf, hp⟩

/-- Witness for C8: five concrete symbols with lookups failing for B and D. -/
theorem computeGainers_partial_failure_witness :
    (computeGainers
      (fun s _ => if s = "B" || s = "D" then none else some ((100 : Rat), (110 : Rat)))
      [⟨"A", 1⟩, ⟨"B", 2⟩, ⟨"C", 3⟩, ⟨"D", 4⟩, ⟨"E", 5⟩]).length = 3 :=
  (computeGainers_partial_failure
    (fun s _ => if s = "B" || s = "D" then none else some ((100 : Rat), (110 : Rat)))
    [⟨"A", 1⟩, ⟨"B", 2⟩, ⟨"C", 3⟩, ⟨"D", 4⟩, ⟨"E", 5⟩] (by decide) (by decide)).1

/-- C10. Implicit gainers candidate cap: `computeGainers` only consults the
price lookup on the first `limitTickers` items (two lookup functions that
agree on that prefix give identical results), the result is the same as on
the truncated list, and every returned row's candidate lies in that prefix —
candidates beyond it can never appear. -/
theorem computeGainers_prefix_cap (f g : String → Nat → Option (Rat × Rat))
    (items : List GainInfo) (lim : Nat)
    (hfg : ∀ i ∈ items.take lim, f i.symbol i.firstTs = g i.symbol i.firstTs) :
    computeGainers f items lim = computeGainers g items lim ∧
    computeGainers f items lim = computeGainers f (items.take lim) lim ∧
    ∀ r ∈ computeGainers f items lim, r.info ∈ items.take lim := by
  have hnf : ∀ (h : String → Nat → Option (Rat × Rat)) (l : List GainInfo),
      computeGainers h l lim = sortGainersDesc ((l.take lim).filterMap (gainWorker h)) := by
    intro h l
    simp only [computeGainers]
    rw [filterMap_id_map]
  refine ⟨?_, ?_, ?_⟩
  · rw [hnf f items, hnf g items]
    have hmap : (items.take lim).map (gainWorker f) = (items.take lim).map (gainWorker g) :=
      List.map_congr_left (fun i hi => by unfold gainWorker; rw [hfg i hi])
    rw [← filterMap_id_map, hmap, filterMap_id_map]
  · rw [hnf f items, hnf f (items.take lim), List.take_take, min_self]
  · intro r hr
    rw [hnf f items] at hr
    have hr2 := (sortGainersDesc_perm _).mem_iff.mp hr
    obtain ⟨i, hi, heq⟩ := List.mem_filterMap.mp hr2
    obtain ⟨_, hinfo, _⟩ := gainWorker_some_inv f i r heq
    rw [hinfo]
    exact hi

/-- Witness for C10: two lookups agreeing on the one-element prefix but
disagreeing beyond it give the same ranking. -/
theorem computeGainers_prefix_cap_witness :
    computeGainers (fun s _ => if s = "A" then some ((1 : Rat), (2 : Rat)) else none)
        [⟨"A", 1⟩, ⟨"B", 2⟩] 1 =
      computeGainers (fun s _ => if s = "A" then some ((1 : Rat), (2 : Rat))
        else some ((3 : Rat), (4 : Rat))) [⟨"A", 1⟩, ⟨"B", 2⟩] 1 :=
  (computeGainers_prefix_cap
    (fun s _ => if s = "A" then some ((1 : Rat), (2 : Rat)) else none)
    (fun s _ => if s = "A" then some ((1 : Rat), (2 : Rat)) else some ((3 : Rat), (4 : Rat)))
    [⟨"A", 1⟩, ⟨"B", 2⟩] 1 (by decide)).1

/-! ## C3: backfill resume -/

theorem appendEntries_checkpoints (db : Db) (es : List MentionRecord) (now : String) :
    ((appendEntries db es now).1).checkpoints = db.checkpoints := by
  unfold appendEntries
  by_cases h : es.length = 0
  · simp [h]
  · simp only [if_neg h]
    by_cases h2 : 0 < (es.foldl appendStep (db.entries, db.entries.map entryKey, 0)).2.2
    · simp [h2]
    · simp [h2]

theorem handle_checkpoints (env : BEnv) (db : Db) (m : BMsg) (cw : Bool) :
    ((handleGraphChannelMessage env db m false cw).1).checkpoints = db.checkpoints := by
  unfold handleGraphChannelMessage
  by_cases h : jsTrim m.content = ""
  · simp [h]
  · simp only [if_neg h, Bool.false_eq_true, if_false]
    by_cases h2 : 0 < (extractTickers (jsTrim m.content) env.tickerSet env.blacklist).length
    · simp [h2, appendEntries_checkpoints]
    · simp [h2]

theorem insertByTs_perm (m : BMsg) :
    ∀ l : List BMsg, (insertByTs m l).Perm (m :: l) := by
  intro l
  induction l with
  | nil => simp [insertByTs]
  | cons x xs ih =>
    rw [insertByTs]
    by_cases h : m.createdTimestamp < x.createdTimestamp
    · simp [h]
    · rw [if_neg h]
      exact (ih.cons x).trans (List.Perm.swap m x xs)

theorem sortByTs_perm (l : List BMsg) : (sortByTs l).Perm l := by
  induction l with
  | nil => simp [sortByTs]
  | cons x xs ih =>
    have : sortByTs (x :: xs) = insertByTs x (sortByTs xs) := rfl
    rw [this]
    exact (insertByTs_perm x _).trans (ih.cons x)

theorem sortByTs_sorted_id (l : List BMsg)
    (h : List.Pairwise (fun a b : BMsg => a.createdTimestamp < b.createdTimestamp) l) :
    sortByTs l = l := by
  induction l with
  | nil => rfl
  | cons x xs ih =>
    rw [List.pairwise_cons] at h
    have hx : sortByTs (x :: xs) = insertByTs x (sortByTs xs) := rfl
    rw [hx, ih h.2]
    cases xs with
    | nil => rfl
    | cons y ys =>
      rw [insertByTs, if_pos (h.1 y (by simp))]

theorem pairwise_getLast {α : Type} (R : α → α → Prop) :
    ∀ (l : List α) (hne : l ≠ []), List.Pairwise R l →
      ∀ x ∈ l, x = l.getLast hne ∨ R x (l.getLast hne) := by
  intro l
  induction l with
  | nil => intro h; cases h rfl
  | cons a rest ih =>
    intro _ hp x hx
    rw [List.pairwise_cons] at hp
    cases rest with
    | nil =>
      rcases List.mem_cons.mp hx with rfl | h
      · left; rfl
      · cases h
    | cons b rest2 =>
      have hlast : (a :: b :: rest2).getLast (by simp) = (b :: rest2).getLast (by simp) :=
        List.getLast_cons (by simp)
      rcases List.mem_cons.mp hx with rfl | h
      · right
        rw [hlast]
        exact hp.1 _ (List.getLast_mem _)
      · have := ih (by simp) hp.2 x h
        rw [hlast]
        exact this

theorem backfillStep_fetched (env : BEnv) (st : BState) (m : BMsg) :
    (backfillStep env st m).fetchedIds = st.fetchedIds := by
  unfold backfillStep
  by_cases h : eligibleMsg env m = true <;> simp [h]

theorem backfillStep_afterId (env : BEnv) (st : BState) (m : BMsg) :
    (backfillStep env st m).afterId = m.id := by
  unfold backfillStep
  by_cases h : eligibleMsg env m = true <;> simp [h]

theorem backfillStep_eligible (env : BEnv) (st : BState) (m : BMsg)
    (h : eligibleMsg env m = true) :
    (backfillStep env st m).db =
      updateCheckpoint ((handleGraphChannelMessage env st.db m false false).1)
        env.channelId m.id (isoOfMs m.createdTimestamp) env.now ∧
    (backfillStep env st m).processedIds = st.processedIds ++ [m.id] := by
  unfold backfillStep
  simp [h]

theorem backfillStep_ineligible (env : BEnv) (st : BState) (m : BMsg)
    (h : eligibleMsg env m = false) :
    (backfillStep env st m).db = st.db ∧
    (backfillStep env st m).processedIds = st.processedIds := by
  unfold backfillStep
  simp [h]

theorem foldStep_fetched (env : BEnv) :
    ∀ (msgs : List BMsg) (st : BState),
    (msgs.foldl (backfillStep env) st).fetchedIds = st.fetchedIds := by
  intro msgs
  induction msgs with
  | nil => intro st; rfl
  | cons m rest ih =>
    intro st
    rw [List.foldl_cons, ih, backfillStep_fetched]

theorem foldStep_afterId (env : BEnv) :
    ∀ (msgs : List BMsg) (st : BState) (hne : msgs ≠ []),
    (msgs.foldl (backfillStep env) st).afterId = (msgs.getLast hne).id := by
  intro msgs
  induction msgs with
  | nil => intro st h; cases h rfl
  | cons m rest ih =>
    intro st _
    rw [List.foldl_cons]
    cases rest with
    | nil => simp [backfillStep_afterId]
    | cons m2 rest2 =>
      rw [ih (backfillStep env st m) (by simp)]
      exact congrArg BMsg.id (List.getLast_cons (by simp)).symm

theorem foldStep_processed (env : BEnv) :
    ∀ (msgs : List BMsg) (st : BState) (i : String),
    i ∈ (msgs.foldl (backfillStep env) st).processedIds →
    i ∈ st.processedIds ∨ ∃ m ∈ msgs, i = m.id := by
  intro msgs
  induction msgs with
  | nil => intro st i h; exact Or.inl h
  | cons m rest ih =>
    intro st i h
    rw [List.foldl_cons] at h
    rcases ih (backfillStep env st m) i h with h2 | ⟨m2, hm2, rfl⟩
    · by_cases he : eligibleMsg env m = true
      · rw [(backfillStep_eligible env st m he).2] at h2
        rcases List.mem_append.mp h2 with h3 | h3
        · exact Or.inl h3
        · exact Or.inr ⟨m, by simp, (List.mem_singleton.mp h3)⟩
      · rw [(backfillStep_ineligible env st m (by simpa using he)).2] at h2
        exact Or.inl h2
    · exact Or.inr ⟨m2, by simp [hm2], rfl⟩

theorem foldStep_noop (env : BEnv) :
    ∀ (msgs : List BMsg) (st : BState),
    (∀ m ∈ msgs, eligibleMsg env m = false) →
    (msgs.foldl (backfillStep env) st).db = st.db ∧
    (msgs.foldl (backfillStep env) st).processedIds = st.processedIds := by
  intro msgs
  induction msgs with
  | nil => intro st _; exact ⟨rfl, rfl⟩
  | cons m rest ih =>
    intro st h
    rw [List.foldl_cons]
    obtain ⟨h1, h2⟩ := ih (backfillStep env st m) (fun x hx => h x (by simp [hx]))
    obtain ⟨h3, h4⟩ := backfillStep_ineligible env st m (h m (by simp))
    exact ⟨h1.trans h3, h2.trans h4⟩

theorem foldStep_cp (env : BEnv) :
    ∀ (msgs : List BMsg) (st : BState) (cp : Checkpoint),
    alistGet st.db.checkpoints env.channelId = some cp →
    cp.lastProcessedId ≠ "" →
    (∀ m ∈ msgs, m.id ≠ "") →
    ∃ cp', alistGet (msgs.foldl (backfillStep env) st).db.checkpoints env.channelId =
        some cp' ∧
      cp'.lastProcessedId ≠ "" ∧
      bigIntOf cp.lastProcessedId ≤ bigIntOf cp'.lastProcessedId ∧
      ∀ m ∈ msgs, eligibleMsg env m = true →
        bigIntOf m.id ≤ bigIntOf cp'.lastProcessedId := by
  intro msgs
  induction msgs with
  | nil =>
    intro st cp hlk hne _
    exact ⟨cp, hlk, hne, le_refl _, by simp⟩
  | cons m rest ih =>
    intro st cp hlk hne hids
    by_cases he : eligibleMsg env m = true
    · obtain ⟨hdb, _⟩ := backfillStep_eligible env st m he
      have hlk1 : alistGet ((handleGraphChannelMessage env st.db m false false).1).checkpoints
          env.channelId = some cp := by
        rw [handle_checkpoints]; exact hlk
      by_cases hgt : bigIntOf cp.lastProcessedId < bigIntOf m.id
      · have hupd := updateCheckpoint_advance _ env.channelId cp m.id
          (isoOfMs m.createdTimestamp) env.now hlk1 hne hgt
        have hlk2 : alistGet (backfillStep env st m).db.checkpoints env.channelId =
            some ⟨m.id, isoOfMs m.createdTimestamp⟩ := by
          rw [hdb, hupd]
          exact alistGet_set_self _ _ _
        obtain ⟨cp', h1, h2, h3, h4⟩ := ih (backfillStep env st m)
          ⟨m.id, isoOfMs m.createdTimestamp⟩ hlk2 (hids m (by simp))
          (fun x hx => hids x (by simp [hx]))
        refine ⟨cp', by simpa using h1, h2, le_trans (le_of_lt hgt) h3, ?_⟩
        intro x hx hex
        rcases List.mem_cons.mp hx with rfl | hx'
        · exact h3
        · exact h4 x hx' hex
      · have hupd := updateCheckpoint_stale _ env.channelId cp m.id
          (isoOfMs m.createdTimestamp) env.now hlk1 hne hgt
        have hlk2 : alistGet (backfillStep env st m).db.checkpoints env.channelId =
            some cp := by
          rw [hdb, hupd]
          exact hlk1
        obtain ⟨cp', h1, h2, h3, h4⟩ := ih (backfillStep env st m) cp hlk2 hne
          (fun x hx => hids x (by simp [hx]))
        refine ⟨cp', by simpa using h1, h2, h3, ?_⟩
        intro x hx hex
        rcases List.mem_cons.mp hx with rfl | hx'
        · exact le_trans (le_of_not_lt hgt) h3
        · exact h4 x hx' hex
    · obtain ⟨hdb, _⟩ := backfillStep_ineligible env st m (by simpa using he)
      have hlk2 : alistGet (backfillStep env st m).db.checkpoints env.channelId = some cp := by
        rw [hdb]; exact hlk
      obtain ⟨cp', h1, h2, h3, h4⟩ := ih (backfillStep env st m) cp hlk2 hne
        (fun x hx => hids x (by simp [hx]))
      refine ⟨cp', by simpa using h1, h2, h3, ?_⟩
      intro x hx hex
      rcases List.mem_cons.mp hx with rfl | hx'
      · exact absurd hex (by simpa using he)
      · exact h4 x hx' hex

theorem fetchPage_mem (env : BEnv) (afterId : String) (m : BMsg)
    (h : m ∈ fetchPage env afterId) :
    m ∈ env.channel ∧ bigIntOf afterId < bigIntOf m.id := by
  unfold fetchPage at h
  have h2 := List.mem_of_mem_take h
  exact ⟨List.mem_of_mem_filter h2, by simpa using List.of_mem_filter h2⟩

theorem backfillLoop_gt (env : BEnv) (M : String) :
    ∀ (fuel : Nat) (st : BState),
    bigIntOf M ≤ bigIntOf st.afterId →
    (∀ i ∈ st.fetchedIds, bigIntOf M < bigIntOf i) →
    (∀ i ∈ st.processedIds, bigIntOf M < bigIntOf i) →
    (∀ i ∈ (backfillLoop env fuel st).fetchedIds, bigIntOf M < bigIntOf i) ∧
    (∀ i ∈ (backfillLoop env fuel st).processedIds, bigIntOf M < bigIntOf i) := by
  intro fuel
  induction fuel with
  | zero => intro st _ hf hp; exact ⟨hf, hp⟩
  | succ n ih =>
    intro st hafter hf hp
    rw [backfillLoop]
    by_cases hpage : (fetchPage env st.afterId).length = 0
    · simp only [hpage, if_pos]
      exact ⟨hf, hp⟩
    · simp only [hpage, if_neg, Bool.false_eq_true, not_false_eq_true]
      set page := fetchPage env st.afterId with hpagedef
      set msgs := sortByTs page with hmsgs
      have hmlen : msgs.length = page.length := (sortByTs_perm page).length_eq
      have hmne : msgs ≠ [] := by
        intro h0
        rw [h0] at hmlen
        exact hpage (by simpa using hmlen.symm)
      have hmem_page : ∀ m ∈ msgs, m ∈ env.channel ∧ bigIntOf st.afterId < bigIntOf m.id :=
        fun m hm => fetchPage_mem env st.afterId m ((sortByTs_perm page).mem_iff.mp hm)
      set st1 : BState := { st with fetchedIds := st.fetchedIds ++ page.map (·.id) }
        with hst1
      set st2 := msgs.foldl (backfillStep env) st1 with hst2
      apply ih st2
      · rw [hst2, foldStep_afterId env msgs st1 hmne]
        have := (hmem_page _ (List.getLast_mem hmne)).2
        omega
      · rw [hst2, foldStep_fetched]
        intro i hi
        rw [hst1] at hi
        simp only [List.mem_append, List.mem_map] at hi
        rcases hi with hi | ⟨m, hm, rfl⟩
        · exact hf i hi
        · have := (fetchPage_mem env st.afterId m hm).2
          omega
      · intro i hi
        rcases foldStep_processed env msgs st1 i hi with h2 | ⟨m, hm, rfl⟩
        · exact hp i h2
        · have := (hmem_page m hm).2
          omega

theorem backfillLoop_noop (env : BEnv) :
    ∀ (fuel : Nat) (st : BState),
    (∀ m ∈ env.channel, bigIntOf st.afterId < bigIntOf m.id → eligibleMsg env m = false) →
    (backfillLoop env fuel st).db = st.db ∧
    (backfillLoop env fuel st).processedIds = st.processedIds := by
  intro fuel
  induction fuel with
  | zero => intro st _; exact ⟨rfl, rfl⟩
  | succ n ih =>
    intro st hinel
    rw [backfillLoop]
    by_cases hpage : (fetchPage env st.afterId).length = 0
    · simp [hpage]
    · simp only [hpage, if_neg, Bool.false_eq_true, not_false_eq_true]
      set page := fetchPage env st.afterId with hpagedef
      set msgs := sortByTs page with hmsgs
      have hmlen : msgs.length = page.length := (sortByTs_perm page).length_eq
      have hmne : msgs ≠ [] := by
        intro h0
        rw [h0] at hmlen
        exact hpage (by simpa using hmlen.symm)
      have hmem_page : ∀ m ∈ msgs, m ∈ env.channel ∧ bigIntOf st.afterId < bigIntOf m.id :=
        fun m hm => fetchPage_mem env st.afterId m ((sortByTs_perm page).mem_iff.mp hm)
      set st1 : BState := { st with fetchedIds := st.fetchedIds ++ page.map (·.id) }
        with hst1
      set st2 := msgs.foldl (backfillStep env) st1 with hst2
      obtain ⟨hdb2, hpr2⟩ := foldStep_noop env msgs st1
        (fun m hm => hinel m (hmem_page m hm).1 (hmem_page m hm).2)
      have hafter2 : bigIntOf st.afterId < bigIntOf st2.afterId := by
        rw [hst2, foldStep_afterId env msgs st1 hmne]
        exact (hmem_page _ (List.getLast_mem hmne)).2
      obtain ⟨hd, hp⟩ := ih st2 (fun m hm hgt => hinel m hm (by omega))
      constructor
      · rw [hd, hdb2]
      · rw [hp, hpr2]

theorem filter_narrow {α : Type} (p q : α → Bool) :
    ∀ l : List α, (∀ a ∈ l, q a = true → p a = true) →
    l.filter q = (l.filter p).filter q := by
  intro l
  induction l with
  | nil => intro _; rfl
  | cons a rest ih =>
    intro h
    by_cases hq : q a = true
    · rw [List.filter_cons_of_pos hq, List.filter_cons_of_pos (h a (by simp) hq),
        List.filter_cons_of_pos hq, ih (fun x hx => h x (by simp [hx]))]
    · rw [List.filter_cons_of_neg (by simpa using hq)]
      by_cases hp : p a = true
      · rw [List.filter_cons_of_pos hp, List.filter_cons_of_neg (by simpa using hq),
          ih (fun x hx => h x (by simp [hx]))]
      · rw [List.filter_cons_of_neg (by simpa using hp),
          ih (fun x hx => h x (by simp [hx]))]

theorem backfillLoop_cov (env : BEnv)
    (hsorted : List.Pairwise (fun a b : BMsg =>
      bigIntOf a.id < bigIntOf b.id ∧ a.createdTimestamp < b.createdTimestamp) env.channel)
    (hids : ∀ m ∈ env.channel, m.id ≠ "") :
    ∀ (fuel : Nat) (st : BState) (cp : Checkpoint),
    (env.channel.filter (fun m => bigIntOf st.afterId < bigIntOf m.id)).length < fuel →
    alistGet st.db.checkpoints env.channelId = some cp →
    cp.lastProcessedId ≠ "" →
    (∀ m ∈ env.channel, eligibleMsg env m = true →
      bigIntOf st.afterId < bigIntOf m.id ∨
        bigIntOf m.id ≤ bigIntOf cp.lastProcessedId) →
    ∃ cp', alistGet (backfillLoop env fuel st).db.checkpoints env.channelId = some cp' ∧
      cp'.lastProcessedId ≠ "" ∧
      bigIntOf cp.lastProcessedId ≤ bigIntOf cp'.lastProcessedId ∧
      ∀ m ∈ env.channel, eligibleMsg env m = true →
        bigIntOf m.id ≤ bigIntOf cp'.lastProcessedId := by
  intro fuel
  induction fuel with
  | zero => intro st cp hlen; omega
  | succ n ih =>
    intro st cp hlen hlk hne hinv
    rw [backfillLoop]
    by_cases hpage : (fetchPage env st.afterId).length = 0
    · simp only [hpage, if_pos]
      refine ⟨cp, hlk, hne, le_refl _, ?_⟩
      intro m hm he
      rcases hinv m hm he with hgt | hle
      · exfalso
        have hmf : m ∈ env.channel.filter
            (fun m => bigIntOf st.afterId < bigIntOf m.id) :=
          List.mem_filter.mpr ⟨hm, by simpa using hgt⟩
        unfold fetchPage at hpage
        rw [List.length_take] at hpage
        have h0 : (env.channel.filter
            (fun m => bigIntOf st.afterId < bigIntOf m.id)).length = 0 := by omega
        rw [List.length_eq_zero] at h0
        rw [h0] at hmf
        cases hmf
      · exact hle
    · simp only [hpage, if_neg, Bool.false_eq_true, not_false_eq_true]
      set F := env.channel.filter (fun m => bigIntOf st.afterId < bigIntOf m.id)
        with hF
      have hFid : List.Pairwise (fun a b : BMsg => bigIntOf a.id < bigIntOf b.id) F :=
        (hsorted.imp (fun h => h.1)).filter _
      have hFts : List.Pairwise
          (fun a b : BMsg => a.createdTimestamp < b.createdTimestamp) F :=
        (hsorted.imp (fun h => h.2)).filter _
      set page := fetchPage env st.afterId with hpagedef
      have hpageF : page = F.take 100 := rfl
      have hpg_id : List.Pairwise (fun a b : BMsg => bigIntOf a.id < bigIntOf b.id) page :=
        hFid.sublist (hpageF ▸ List.take_sublist 100 F)
      have hpg_ts : List.Pairwise
          (fun a b : BMsg => a.createdTimestamp < b.createdTimestamp) page :=
        hFts.sublist (hpageF ▸ List.take_sublist 100 F)
      have hsort_id : sortByTs page = page := sortByTs_sorted_id page hpg_ts
      rw [hsort_id]
      have hpne : page ≠ [] := fun h0 => hpage (by simp [h0])
      set b := page.getLast hpne with hb
      have hbpage : b ∈ page := List.getLast_mem hpne
      have hbF : b ∈ F := List.mem_of_mem_take (hpageF ▸ hbpage)
      have hbgt : bigIntOf st.afterId < bigIntOf b.id := by
        simpa using List.of_mem_filter hbF
      have hple : ∀ m ∈ page, bigIntOf m.id ≤ bigIntOf b.id := by
        intro m hm
        rcases pairwise_getLast _ page hpne hpg_id m hm with rfl | hlt
        · exact le_refl _
        · exact le_of_lt hlt
      have hFsplit : F = page ++ F.drop 100 := by
        rw [hpageF]
        exact (List.take_append_drop 100 F).symm
      have hrest : ∀ m ∈ F.drop 100, bigIntOf b.id < bigIntOf m.id := by
        intro m hm
        have hcross := (List.pairwise_append.mp (hFsplit ▸ hFid)).2.2
        exact hcross b hbpage m hm
      set st1 : BState := { st with fetchedIds := st.fetchedIds ++ page.map (·.id) }
        with hst1
      have hlk1 : alistGet st1.db.checkpoints env.channelId = some cp := hlk
      obtain ⟨cp2, hlk2, hne2, hge2, hcov2⟩ := foldStep_cp env page st1 cp
        hlk1 hne
        (fun m hm => hids m (fetchPage_mem env st.afterId m hm).1)
      set st2 := page.foldl (backfillStep env) st1 with hst2
      have hafter2 : st2.afterId = b.id := by
        rw [hst2, foldStep_afterId env page st1 hpne]
      have hlensum : F.length = page.length + (F.drop 100).length := by
        have := congrArg List.length hFsplit
        simpa [List.length_append] using this
      have hplen : 0 < page.length := by
        cases hl : page.length
        · exact absurd hl hpage
        · omega
      have hlen2 : (env.channel.filter
          (fun m => bigIntOf st2.afterId < bigIntOf m.id)).length < n := by
        have hsub : env.channel.filter (fun m => bigIntOf b.id < bigIntOf m.id) =
            (env.channel.filter (fun m => bigIntOf st.afterId < bigIntOf m.id)).filter
              (fun m => bigIntOf b.id < bigIntOf m.id) := by
          apply filter_narrow
          intro a _ hq
          have haq : bigIntOf b.id < bigIntOf a.id := by simpa using hq
          simp
          omega
        have hpagefilter : page.filter (fun m => bigIntOf b.id < bigIntOf m.id) = [] := by
          rw [List.filter_eq_nil_iff]
          intro m hm
          have := hple m hm
          simp
          omega
        rw [hafter2, hsub, ← hF]
        conv_lhs => rw [hFsplit]
        rw [List.filter_append, hpagefilter, List.nil_append]
        calc ((F.drop 100).filter (fun m => bigIntOf b.id < bigIntOf m.id)).length
            ≤ (F.drop 100).length := List.length_filter_le _ _
          _ < n := by omega
      have hinv2 : ∀ m ∈ env.channel, eligibleMsg env m = true →
          bigIntOf st2.afterId < bigIntOf m.id ∨
            bigIntOf m.id ≤ bigIntOf cp2.lastProcessedId := by
        intro m hm he
        rcases hinv m hm he with hgt | hle
        · by_cases hbm : bigIntOf b.id < bigIntOf m.id
          · left; rw [hafter2]; exact hbm
          · right
            have hmF : m ∈ F := List.mem_filter.mpr ⟨hm, by simpa using hgt⟩
            have hmpage : m ∈ page := by
              rcases List.mem_append.mp (hFsplit ▸ hmF) with h | h
              · exact h
              · exact absurd (hrest m h) hbm
            exact hcov2 m hmpage he
        · right; omega
      obtain ⟨cp', h1, h2, h3, h4⟩ := ih st2 cp2 hlen2 hlk2 hne2 hinv2
      exact ⟨cp', h1, h2, le_trans hge2 h3, h4⟩

/-- C3, amended. Backfill resume: with an existing checkpoint at id `M` for
the channel (and the channel history id/timestamp-sorted with nonempty
snowflake ids), `runBackfillOnce` fetches and processes only messages with
id strictly greater than `M`; a second run with no new messages processes
zero records and leaves the document unchanged, and its single terminal
`commitDbIfChanged` call is a no-op (`commitChanged = false`) — the call
count on the second run is one, not zero. -/
theorem runBackfillOnce_resume (env : BEnv) (db0 : Db) (nMs n2Ms d d2 : Int)
    (cp0 : Checkpoint)
    (hcp : alistGet db0.checkpoints env.channelId = some cp0)
    (hM : cp0.lastProcessedId ≠ "")
    (hsorted : List.Pairwise (fun a b : BMsg =>
      bigIntOf a.id < bigIntOf b.id ∧ a.createdTimestamp < b.createdTimestamp) env.channel)
    (hids : ∀ m ∈ env.channel, m.id ≠ "") :
    (∀ i ∈ (runBackfillOnce env db0 nMs d).fetchedIds,
        bigIntOf cp0.lastProcessedId < bigIntOf i) ∧
    (∀ i ∈ (runBackfillOnce env db0 nMs d).processedIds,
        bigIntOf cp0.lastProcessedId < bigIntOf i) ∧
    (runBackfillOnce env (runBackfillOnce env db0 nMs d).db n2Ms d2).processedIds = [] ∧
    (runBackfillOnce env (runBackfillOnce env db0 nMs d).db n2Ms d2).db =
      (runBackfillOnce env db0 nMs d).db ∧
    (runBackfillOnce env (runBackfillOnce env db0 nMs d).db n2Ms d2).commitCalls = 1 ∧
    (runBackfillOnce env (runBackfillOnce env db0 nMs d).db n2Ms d2).commitChanged
      = false := by
  set st0 : BState :=
    { db := db0, afterId := cp0.lastProcessedId, scanned := 0,
      fetchedIds := [], processedIds := [] } with hst0
  set stf := backfillLoop env (env.channel.length + 1) st0 with hstf
  have hrun1 : runBackfillOnce env db0 nMs d =
      { db := stf.db, scanned := stf.scanned, fetchedIds := stf.fetchedIds,
        processedIds := stf.processedIds, commitCalls := 1,
        commitChanged := decide (stf.db ≠ db0) } := by
    simp [runBackfillOnce, hcp, hM, hst0]
  have hgt := backfillLoop_gt env cp0.lastProcessedId (env.channel.length + 1) st0
    (le_refl _) (by intro i hi; cases hi) (by intro i hi; cases hi)
  obtain ⟨cp', hlk', hne', hge', hcov'⟩ :=
    backfillLoop_cov env hsorted hids (env.channel.length + 1) st0 cp0
      (Nat.lt_succ_of_le (List.length_filter_le _ _)) hcp hM
      (by
        intro m _ _
        rcases Nat.lt_or_ge (bigIntOf cp0.lastProcessedId) (bigIntOf m.id) with h | h
        · exact Or.inl h
        · exact Or.inr h)
  set st20 : BState :=
    { db := stf.db, afterId := cp'.lastProcessedId, scanned := 0,
      fetchedIds := [], processedIds := [] } with hst20
  have hrun2 : runBackfillOnce env stf.db n2Ms d2 =
      { db := (backfillLoop env (env.channel.length + 1) st20).db,
        scanned := (backfillLoop env (env.channel.length + 1) st20).scanned,
        fetchedIds := (backfillLoop env (env.channel.length + 1) st20).fetchedIds,
        processedIds := (backfillLoop env (env.channel.length + 1) st20).processedIds,
        commitCalls := 1,
        commitChanged :=
          decide ((backfillLoop env (env.channel.length + 1) st20).db ≠ stf.db) } := by
    simp [runBackfillOnce, hlk', hne', hst20]
  obtain ⟨hdb2, hproc2⟩ := backfillLoop_noop env (env.channel.length + 1) st20
    (by
      intro m hm hgt2
      cases he : eligibleMsg env m
      · rfl
      · have := hcov' m hm he
        have hafter : st20.afterId = cp'.lastProcessedId := rfl
        rw [hafter] at hgt2
        omega)
  refine ⟨?_, ?_, ?_, ?_, ?_, ?_⟩
  · rw [hrun1]; exact hgt.1
  · rw [hrun1]; exact hgt.2
  · rw [hrun1]
    show (runBackfillOnce env stf.db n2Ms d2).processedIds = []
    rw [hrun2]
    exact hproc2
  · rw [hrun1]
    show (runBackfillOnce env stf.db n2Ms d2).db = stf.db
    rw [hrun2]
    exact hdb2
  · rw [hrun1]
    show (runBackfillOnce env stf.db n2Ms d2).commitCalls = 1
    rw [hrun2]
  · rw [hrun1]
    show (runBackfillOnce env stf.db n2Ms d2).commitChanged = false
    rw [hrun2]
    show decide ((backfillLoop env (env.channel.length + 1) st20).db ≠ stf.db) = false
    rw [hdb2]
    simp

/-- C3, counterexample to "zero publish-commit calls on the second run": a
concrete second backfill run that fetches nothing and processes zero records
still issues exactly one `commitDbIfChanged` call (the unconditional
terminal commit of `runBackfillOnce`). -/
theorem backfill_second_run_commit_counterexample :
    (runBackfillOnce
      { channel := [⟨"10", 1, "hello", false, [], "a", "", "", "", "u", "c", "g", "L"⟩],
        channelId := "c", botUserId := "", tickerSet := [], blacklist := [], now := "n" }
      (runBackfillOnce
        { channel := [⟨"10", 1, "hello", false, [], "a", "", "", "", "u", "c", "g", "L"⟩],
          channelId := "c", botUserId := "", tickerSet := [], blacklist := [], now := "n" }
        { updated := "", entries := [], checkpoints := [("c", ⟨"20", "t"⟩)] }
        0 14).db 0 14).processedIds = [] ∧
    (runBackfillOnce
      { channel := [⟨"10", 1, "hello", false, [], "a", "", "", "", "u", "c", "g", "L"⟩],
        channelId := "c", botUserId := "", tickerSet := [], blacklist := [], now := "n" }
      (runBackfillOnce
        { channel := [⟨"10", 1, "hello", false, [], "a", "", "", "", "u", "c", "g", "L"⟩],
          channelId := "c", botUserId := "", tickerSet := [], blacklist := [], now := "n" }
        { updated := "", entries := [], checkpoints := [("c", ⟨"20", "t"⟩)] }
        0 14).db 0 14).commitCalls = 1 := by decide

/-- Witness for C3 at a concrete channel: one eligible message past the
checkpoint; the second run processes nothing. -/
theorem runBackfillOnce_resume_witness :
    (runBackfillOnce
      { channel := [⟨"30", 3, "x", false, [], "a", "", "", "", "u", "c", "g", "L"⟩],
        channelId := "c", botUserId := "", tickerSet := [], blacklist := [], now := "n" }
      (runBackfillOnce
        { channel := [⟨"30", 3, "x", false, [], "a", "", "", "", "u", "c", "g", "L"⟩],
          channelId := "c", botUserId := "", tickerSet := [], blacklist := [], now := "n" }
        { updated := "", entries := [], checkpoints := [("c", ⟨"20", "t"⟩)] }
        0 14).db 0 14).processedIds = [] :=
  (runBackfillOnce_resume
    { channel := [⟨"30", 3, "x", false, [], "a", "", "", "", "u", "c", "g", "L"⟩],
      channelId := "c", botUserId := "", tickerSet := [], blacklist := [], now := "n" }
    { updated := "", entries := [], checkpoints := [("c", ⟨"20", "t"⟩)] }
    0 0 14 14 ⟨"20", "t"⟩ rfl (by decide) (by decide) (by decide)).2.2.1
